import Mathlib

/-
Verification of the DVS (dynamic vision sensor) simulator: a shallow
embedding of `src/dvs_simulator_py/dvs_simulator.py` over exact rational
arithmetic.  The per-pixel crossing-detection loop of
`DvsSimulator.update` is modelled as a fuel-indexed recursion
(`listCrossingsAux`) together with a proven-sufficient fuel bound
(`crossingFuel`), the per-pixel state as functions from pixel
coordinates to rationals, and the failing `assert` statements as
`Option`-valued rejection.
-/

namespace DvsSim

/-- Tolerance used by `update` to skip pixels whose intensity change is
negligible (`tol = 1e-6` in the source). -/
def tol : ℚ := 1 / 1000000

/-- An emitted DVS event: pixel coordinates, interpolated timestamp and
polarity (`true` = brightening, mirroring `polarity > 0`). -/
structure Event where
  x : ℕ
  y : ℕ
  ts : ℚ
  polarity : Bool
deriving DecidableEq, Repr

/-- Embedding of `make_event(x, y, ts, pol)`. -/
def make_event (x y : ℕ) (ts : ℚ) (pol : Bool) : Event :=
  { x := x, y := y, ts := ts, polarity := pol }

/-- A log-intensity frame: a height × width grid of rationals, accessed
as `values v u` (row `v`, column `u`), mirroring `array[v, u]`. -/
structure Frame where
  height : ℕ
  width : ℕ
  values : ℕ → ℕ → ℚ

/-- State of `DvsSimulator`: contrast threshold `C`, grid dimensions,
per-pixel reference levels, the stored intensity snapshot (kept with its
dimensions, as a `Frame`) and the stored timestamp. -/
structure DvsSimulator where
  C : ℚ
  height : ℕ
  width : ℕ
  reference_values : ℕ → ℕ → ℚ
  It_array : Frame
  t : ℚ

/-- Embedding of `DvsSimulator.__init__`: requires `C > 0` and positive
dimensions (the `assert` statements), initialises the reference grid and
the snapshot to (copies of) the initial values. -/
def DvsSimulator.init (initial_time : ℚ) (initial_values : Frame) (C : ℚ) :
    Option DvsSimulator :=
  if 0 < C ∧ 0 < initial_values.height ∧ 0 < initial_values.width then
    some { C := C
           height := initial_values.height
           width := initial_values.width
           reference_values := initial_values.values
           It_array := initial_values
           t := initial_time }
  else none

/-- The crossing acceptance test of the scan loop: for positive polarity
`cur_crossing > It and cur_crossing <= It_dt`, otherwise
`cur_crossing < It and cur_crossing >= It_dt`. -/
def crossingTest (pol : ℤ) (It It_dt c : ℚ) : Bool :=
  if 0 < pol then decide (It < c ∧ c ≤ It_dt) else decide (c < It ∧ It_dt ≤ c)

/-- Fuel-indexed embedding of the `while not all_crossings_found` loop:
each step advances the candidate by `polarity * C` and either records it
and continues, or stops at the first candidate failing the test. -/
def listCrossingsAux (C : ℚ) (pol : ℤ) (It It_dt : ℚ) : ℕ → ℚ → List ℚ
  | 0, _ => []
  | fuel + 1, cur =>
      if crossingTest pol It It_dt (cur + (pol : ℚ) * C) then
        (cur + (pol : ℚ) * C) :: listCrossingsAux C pol It It_dt fuel (cur + (pol : ℚ) * C)
      else []

/-- Fuel sufficient for the scan loop to reach its first failing
candidate (proved sufficient below): one more than `⌊|It_dt − ref|/C⌋`. -/
def crossingFuel (C It_dt ref : ℚ) : ℕ := (⌊|It_dt - ref| / C⌋).toNat + 1

/-- The `list_crossings` computed by the loop for one pixel, starting
from the stored reference level `ref`. -/
def list_crossings (C : ℚ) (pol : ℤ) (It It_dt ref : ℚ) : List ℚ :=
  listCrossingsAux C pol It It_dt (crossingFuel C It_dt ref) ref

/-- Embedding of `polarity = +1 if It_dt >= It else -1`. -/
def pixelPolarity (It It_dt : ℚ) : ℤ := if It ≤ It_dt then 1 else -1

/-- Crossings found for one pixel this step, with the polarity the
source computes for it. -/
def pixelCrossings (C It It_dt ref : ℚ) : List ℚ :=
  list_crossings C (pixelPolarity It It_dt) It It_dt ref

/-- Events emitted for one pixel in one `update` step: nothing when
`|It − It_dt| ≤ tol`, otherwise one event per crossing, with timestamp
`t + (crossing − It) * delta_t / (It_dt − It)`. -/
def pixelEvents (C t delta_t It It_dt ref : ℚ) (u v : ℕ) : List Event :=
  if tol < |It - It_dt| then
    (pixelCrossings C It It_dt ref).map fun c =>
      make_event u v (t + (c - It) * delta_t / (It_dt - It))
        (decide (0 < pixelPolarity It It_dt))
  else []

/-- Reference level of one pixel after one `update` step: the last
crossing found (`list_crossings[-1]`) when there is one, otherwise
unchanged (also unchanged for skipped pixels). -/
def pixelNewRef (C It It_dt ref : ℚ) : ℚ :=
  if tol < |It - It_dt| then
    ((pixelCrossings C It It_dt ref).getLast?).getD ref
  else ref

/-- Embedding of `DvsSimulator.update(t_dt, It_dt_array)`.  The leading
`assert` statements (shape equality with the stored snapshot, strictly
positive `delta_t`) become the rejection case `none`; on success the
returned events are collected per pixel with `u` (column) as the outer
loop and `v` (row) as the inner loop, exactly as in the source, and the
new state stores the updated reference grid, the new snapshot and the
new timestamp. -/
def DvsSimulator.update (sim : DvsSimulator) (t_dt : ℚ) (It_dt_array : Frame) :
    Option (List Event × DvsSimulator) :=
  if (It_dt_array.height = sim.It_array.height ∧
      It_dt_array.width = sim.It_array.width) ∧ 0 < t_dt - sim.t then
    some
      ((List.range sim.width).flatMap fun u =>
        (List.range sim.height).flatMap fun v =>
          pixelEvents sim.C sim.t (t_dt - sim.t) (sim.It_array.values v u)
            (It_dt_array.values v u) (sim.reference_values v u) u v,
       { sim with
         reference_values := fun v u =>
           if v < sim.height ∧ u < sim.width then
             pixelNewRef sim.C (sim.It_array.values v u)
               (It_dt_array.values v u) (sim.reference_values v u)
           else sim.reference_values v u
         It_array := It_dt_array
         t := t_dt })
  else none

/-- Comparison used when the driver sorts the accumulated buffer:
`sorted(events, key=lambda e: e.ts)`. -/
def eventLe (a b : Event) : Bool := decide (a.ts ≤ b.ts)

/-- Driver-side accumulation state: the growing `events` buffer and
`last_pub_event_timestamp`. -/
structure DriverBuf where
  events : List Event
  last_pub_event_timestamp : ℚ

/-- Embedding of the per-frame event-publishing step of the driver loop
(lines 336–349): when `timestamp − last_pub_event_timestamp` exceeds
`delta_event` the buffer is sorted by timestamp, handed out tagged with
the current frame timestamp, and cleared; otherwise the buffer is
retained and nothing is published. -/
def publish_step (delta_event timestamp : ℚ) (st : DriverBuf) :
    Option (List Event × ℚ) × DriverBuf :=
  if delta_event < timestamp - st.last_pub_event_timestamp then
    (some (st.events.mergeSort eventLe, timestamp),
     { events := [], last_pub_event_timestamp := timestamp })
  else (none, st)

/-- Value `c` lies strictly between `a` and `b` (in either order). -/
def strictlyBetween (a b c : ℚ) : Prop := (a < c ∧ c < b) ∨ (b < c ∧ c < a)

/-- An unemitted crossing exists strictly between intensity `I` and the
reference level `ref`: some candidate `ref ± n·C` (`n ≥ 1`) lies
strictly between them. -/
def pendingCrossing (C I ref : ℚ) : Prop :=
  ∃ n : ℕ, 1 ≤ n ∧
    (strictlyBetween ref I (ref + (n : ℚ) * C) ∨
     strictlyBetween ref I (ref - (n : ℚ) * C))

/-- The `k`-th candidate value considered by the scan loop started at
`cur` (`k = 0` is the first candidate, `cur + polarity·C`). -/
def cand (C : ℚ) (pol : ℤ) (cur : ℚ) (k : ℕ) : ℚ :=
  cur + ((k : ℚ) + 1) * ((pol : ℚ) * C)

/-- Closed-form number of crossings the loop finds for polarity `+1`:
zero when the very first candidate fails, else `⌊(It_dt − ref)/C⌋`. -/
def posK (C It It_dt ref : ℚ) : ℕ :=
  if crossingTest 1 It It_dt (ref + C) then (⌊(It_dt - ref) / C⌋).toNat else 0

/-- Closed-form number of crossings the loop finds for polarity `−1`:
zero when the very first candidate fails, else `⌊(ref − It_dt)/C⌋`. -/
def negK (C It It_dt ref : ℚ) : ℕ :=
  if crossingTest (-1) It It_dt (ref - C) then (⌊(ref - It_dt) / C⌋).toNat else 0

/-- Constant 1×1 frame holding the value `q`. -/
def constFrame (q : ℚ) : Frame := { height := 1, width := 1, values := fun _ _ => q }

/-- State reached by one (assumed successful) `update`, used to name the
states of concrete runs. -/
def stepD (s : DvsSimulator) (t_dt : ℚ) (f : Frame) : DvsSimulator :=
  ((s.update t_dt f).map Prod.snd).getD s

/-- Contrast threshold of the concrete drift run: equal to the skip
tolerance. -/
def cexC : ℚ := 1 / 1000000

/-- Initial state of the concrete drift run: the 1×1 simulator that
`DvsSimulator.init 0 (constFrame 0) cexC` constructs (proved below). -/
def cexS0 : DvsSimulator :=
  { C := cexC, height := 1, width := 1, reference_values := (constFrame 0).values,
    It_array := constFrame 0, t := 0 }

/-- State after feeding intensity `9e-7` at time 1 (a skipped step). -/
def cexS1 : DvsSimulator := stepD cexS0 1 (constFrame (9 / 10000000))

/-- State after feeding intensity `1.8e-6` at time 2 (another skipped
step). -/
def cexS2 : DvsSimulator := stepD cexS1 2 (constFrame (18 / 10000000))

/-- Concrete 1×1 simulator used for witnesses: `C = 1/2`, intensity 0,
reference 0, time 0. -/
def wSim : DvsSimulator :=
  { C := 1 / 2, height := 1, width := 1, reference_values := fun _ _ => 0,
    It_array := constFrame 0, t := 0 }

/-- Concrete follow-up frame of value `1/2` for the witness run. -/
def wFrame : Frame := constFrame (1 / 2)

/-- State after the witness `update` call. -/
def wSim2 : DvsSimulator := stepD wSim 1 wFrame

/-- Events of the witness `update` call: one brightening event at the
crossing `1/2`, timestamp 1. -/
def wEvs : List Event := [make_event 0 0 1 true]

/-- State after feeding the witness simulator an identical frame. -/
def wSkip : DvsSimulator := stepD wSim 1 (constFrame 0)

lemma cand_zero (C : ℚ) (pol : ℤ) (cur : ℚ) :
    cand C pol cur 0 = cur + (pol : ℚ) * C := by
  simp [cand]

lemma cand_shift (C : ℚ) (pol : ℤ) (cur : ℚ) (k : ℕ) :
    cand C pol (cur + (pol : ℚ) * C) k = cand C pol cur (k + 1) := by
  simp only [cand]
  push_cast
  ring

/-- Every value the scan loop records passed the crossing test. -/
lemma crossingTest_of_mem {C : ℚ} {pol : ℤ} {It It_dt : ℚ} {fuel : ℕ} :
    ∀ {cur c : ℚ}, c ∈ listCrossingsAux C pol It It_dt fuel cur →
      crossingTest pol It It_dt c = true := by
  induction fuel with
  | zero => intro cur c h; simp [listCrossingsAux] at h
  | succ m ih =>
      intro cur c h
      rw [listCrossingsAux] at h
      split at h
      · rcases List.mem_cons.mp h with rfl | h'
        · assumption
        · exact ih h'
      · simp at h

/-- Every value the scan loop records is `cur` plus a positive multiple
of `polarity·C`. -/
lemma offset_of_mem {C : ℚ} {pol : ℤ} {It It_dt : ℚ} {fuel : ℕ} :
    ∀ {cur c : ℚ}, c ∈ listCrossingsAux C pol It It_dt fuel cur →
      ∃ n : ℕ, 1 ≤ n ∧ c = cur + (n : ℚ) * ((pol : ℚ) * C) := by
  induction fuel with
  | zero => intro cur c h; simp [listCrossingsAux] at h
  | succ m ih =>
      intro cur c h
      rw [listCrossingsAux] at h
      split at h
      · rcases List.mem_cons.mp h with rfl | h'
        · exact ⟨1, le_refl 1, by push_cast; ring⟩
        · obtain ⟨n, hn, rfl⟩ := ih h'
          exact ⟨n + 1, by omega, by push_cast; ring⟩
      · simp at h

/-- The scan loop, given enough fuel, returns exactly the maximal
prefix run of passing candidates: if candidates `0, …, K−1` pass and
candidate `K` fails, the result is those `K` candidates in order. -/
lemma listCrossingsAux_run (C : ℚ) (pol : ℤ) (It It_dt : ℚ) :
    ∀ (K : ℕ) (cur : ℚ) (fuel : ℕ), K < fuel →
      (∀ k : ℕ, k < K → crossingTest pol It It_dt (cand C pol cur k) = true) →
      crossingTest pol It It_dt (cand C pol cur K) = false →
      listCrossingsAux C pol It It_dt fuel cur =
        (List.range K).map (cand C pol cur) := by
  intro K
  induction K with
  | zero =>
      intro cur fuel hf _ hfail
      obtain ⟨m, rfl⟩ : ∃ m, fuel = m + 1 := ⟨fuel - 1, by omega⟩
      rw [cand_zero] at hfail
      simp [listCrossingsAux, hfail]
  | succ n ih =>
      intro cur fuel hf hpass hfail
      obtain ⟨m, rfl⟩ : ∃ m, fuel = m + 1 := ⟨fuel - 1, by omega⟩
      have h0 : crossingTest pol It It_dt (cur + (pol : ℚ) * C) = true := by
        rw [← cand_zero]; exact hpass 0 (Nat.succ_pos n)
      rw [listCrossingsAux, if_pos h0]
      have ihs : listCrossingsAux C pol It It_dt m (cur + (pol : ℚ) * C) =
          (List.range n).map (cand C pol (cur + (pol : ℚ) * C)) := by
        refine ih (cur + (pol : ℚ) * C) m (by omega) ?_ ?_
        · intro k hk
          rw [cand_shift]
          exact hpass (k + 1) (by omega)
        · rw [cand_shift]
          exact hfail
      rw [ihs, List.range_succ_eq_map, List.map_cons, List.map_map, cand_zero]
      congr 1
      refine List.map_congr_left ?_
      intro k _
      simp only [Function.comp_apply]
      rw [cand_shift]

/-- For polarity `+1`, candidates `0, …, posK − 1` pass the test,
candidate `posK` fails, and `posK` is below the fuel bound. -/
lemma posK_spec (C It It_dt ref : ℚ) (hC : 0 < C) :
    (∀ k : ℕ, k < posK C It It_dt ref →
      crossingTest 1 It It_dt (cand C 1 ref k) = true) ∧
    crossingTest 1 It It_dt (cand C 1 ref (posK C It It_dt ref)) = false ∧
    posK C It It_dt ref < crossingFuel C It_dt ref := by
  unfold posK
  by_cases h : crossingTest 1 It It_dt (ref + C) = true
  · rw [if_pos h]
    have hmem : It < ref + C ∧ ref + C ≤ It_dt := by
      simpa [crossingTest] using h
    have hCle : C ≤ It_dt - ref := by linarith [hmem.2]
    have hnn : (0 : ℚ) ≤ It_dt - ref := le_trans hC.le hCle
    have hK1 : 1 ≤ ⌊(It_dt - ref) / C⌋ := by
      rw [Int.le_floor]
      rw [show ((1 : ℤ) : ℚ) = 1 by norm_num, le_div_iff₀ hC]
      linarith
    have hKcast : ((⌊(It_dt - ref) / C⌋.toNat : ℤ)) = ⌊(It_dt - ref) / C⌋ :=
      Int.toNat_of_nonneg (by omega)
    have hKcastQ : ((⌊(It_dt - ref) / C⌋.toNat : ℕ) : ℚ) = ((⌊(It_dt - ref) / C⌋ : ℤ) : ℚ) := by
      exact_mod_cast congrArg (fun z : ℤ => (z : ℚ)) hKcast
    refine ⟨?_, ?_, ?_⟩
    · intro k hk
      simp only [cand, crossingTest, if_pos Int.one_pos, Int.cast_one, one_mul,
        decide_eq_true_eq]
      constructor
      · have h1k : (1 : ℚ) ≤ (k : ℚ) + 1 := by
          have : (0 : ℚ) ≤ (k : ℚ) := Nat.cast_nonneg k
          linarith
        nlinarith [hmem.1]
      · have hk1 : (k : ℚ) + 1 ≤ ((⌊(It_dt - ref) / C⌋.toNat : ℕ) : ℚ) := by
          have : (k + 1 : ℕ) ≤ ⌊(It_dt - ref) / C⌋.toNat := hk
          exact_mod_cast this
        have hfl : ((⌊(It_dt - ref) / C⌋ : ℤ) : ℚ) ≤ (It_dt - ref) / C :=
          Int.floor_le _
        have : (k : ℚ) + 1 ≤ (It_dt - ref) / C := by
          rw [hKcastQ] at hk1
          linarith
        rw [le_div_iff₀ hC] at this
        linarith
    · simp only [cand, crossingTest, if_pos Int.one_pos, Int.cast_one, one_mul,
        decide_eq_false_iff_not]
      rintro ⟨-, h2⟩
      have hlt : (It_dt - ref) / C < ((⌊(It_dt - ref) / C⌋ : ℤ) : ℚ) + 1 :=
        Int.lt_floor_add_one _
      rw [← hKcastQ] at hlt
      rw [div_lt_iff₀ hC] at hlt
      nlinarith
    · unfold crossingFuel
      rw [abs_of_nonneg hnn]
      omega
  · rw [if_neg h]
    refine ⟨by omega, ?_, Nat.succ_pos _⟩
    rw [cand_zero]
    simpa using Bool.not_eq_true _ ▸ (by simpa using h)

/-- For polarity `−1`, candidates `0, …, negK − 1` pass the test,
candidate `negK` fails, and `negK` is below the fuel bound. -/
lemma negK_spec (C It It_dt ref : ℚ) (hC : 0 < C) :
    (∀ k : ℕ, k < negK C It It_dt ref →
      crossingTest (-1) It It_dt (cand C (-1) ref k) = true) ∧
    crossingTest (-1) It It_dt (cand C (-1) ref (negK C It It_dt ref)) = false ∧
    negK C It It_dt ref < crossingFuel C It_dt ref := by
  unfold negK
  by_cases h : crossingTest (-1) It It_dt (ref - C) = true
  · rw [if_pos h]
    have hmem : ref - C < It ∧ It_dt ≤ ref - C := by
      simpa [crossingTest] using h
    have hCle : C ≤ ref - It_dt := by linarith [hmem.2]
    have hnn : It_dt - ref ≤ 0 := by linarith
    have hK1 : 1 ≤ ⌊(ref - It_dt) / C⌋ := by
      rw [Int.le_floor]
      rw [show ((1 : ℤ) : ℚ) = 1 by norm_num, le_div_iff₀ hC]
      linarith
    have hKcast : ((⌊(ref - It_dt) / C⌋.toNat : ℤ)) = ⌊(ref - It_dt) / C⌋ :=
      Int.toNat_of_nonneg (by omega)
    have hKcastQ : ((⌊(ref - It_dt) / C⌋.toNat : ℕ) : ℚ) = ((⌊(ref - It_dt) / C⌋ : ℤ) : ℚ) := by
      exact_mod_cast congrArg (fun z : ℤ => (z : ℚ)) hKcast
    refine ⟨?_, ?_, ?_⟩
    · intro k hk
      simp only [cand, crossingTest, Int.cast_neg, Int.cast_one,
        decide_eq_true_eq, if_neg (by norm_num : ¬ (0 : ℤ) < -1)]
      constructor
      · have h1k : (1 : ℚ) ≤ (k : ℚ) + 1 := by
          have : (0 : ℚ) ≤ (k : ℚ) := Nat.cast_nonneg k
          linarith
        nlinarith [hmem.1]
      · have hk1 : (k : ℚ) + 1 ≤ ((⌊(ref - It_dt) / C⌋.toNat : ℕ) : ℚ) := by
          have : (k + 1 : ℕ) ≤ ⌊(ref - It_dt) / C⌋.toNat := hk
          exact_mod_cast this
        have hfl : ((⌊(ref - It_dt) / C⌋ : ℤ) : ℚ) ≤ (ref - It_dt) / C :=
          Int.floor_le _
        have : (k : ℚ) + 1 ≤ (ref - It_dt) / C := by
          rw [hKcastQ] at hk1
          linarith
        rw [le_div_iff₀ hC] at this
        nlinarith
    · simp only [cand, crossingTest, Int.cast_neg, Int.cast_one,
        decide_eq_false_iff_not, if_neg (by norm_num : ¬ (0 : ℤ) < -1)]
      rintro ⟨-, h2⟩
      have hlt : (ref - It_dt) / C < ((⌊(ref - It_dt) / C⌋ : ℤ) : ℚ) + 1 :=
        Int.lt_floor_add_one _
      rw [← hKcastQ] at hlt
      rw [div_lt_iff₀ hC] at hlt
      nlinarith
    · unfold crossingFuel
      rw [abs_of_nonpos hnn]
      have : -(It_dt - ref) = ref - It_dt := by ring
      rw [this]
      omega
  · rw [if_neg h]
    refine ⟨by omega, ?_, Nat.succ_pos _⟩
    have hz : cand C (-1) ref 0 = ref - C := by
      rw [cand_zero]
      push_cast
      ring
    rw [hz]
    simpa using Bool.not_eq_true _ ▸ (by simpa using h)

/-- With any fuel at least `crossingFuel`, the positive-polarity loop
returns the closed-form run. -/
lemma listCrossingsAux_pos (C It It_dt ref : ℚ) (hC : 0 < C) (fuel : ℕ)
    (hfuel : crossingFuel C It_dt ref ≤ fuel) :
    listCrossingsAux C 1 It It_dt fuel ref =
      (List.range (posK C It It_dt ref)).map (cand C 1 ref) := by
  obtain ⟨hpass, hfail, hlt⟩ := posK_spec C It It_dt ref hC
  exact listCrossingsAux_run C 1 It It_dt _ ref fuel (by omega) hpass hfail

/-- With any fuel at least `crossingFuel`, the negative-polarity loop
returns the closed-form run. -/
lemma listCrossingsAux_neg (C It It_dt ref : ℚ) (hC : 0 < C) (fuel : ℕ)
    (hfuel : crossingFuel C It_dt ref ≤ fuel) :
    listCrossingsAux C (-1) It It_dt fuel ref =
      (List.range (negK C It It_dt ref)).map (cand C (-1) ref) := by
  obtain ⟨hpass, hfail, hlt⟩ := negK_spec C It It_dt ref hC
  exact listCrossingsAux_run C (-1) It It_dt _ ref fuel (by omega) hpass hfail

/-- Closed form of `list_crossings` for polarity `+1`. -/
lemma list_crossings_pos (C It It_dt ref : ℚ) (hC : 0 < C) :
    list_crossings C 1 It It_dt ref =
      (List.range (posK C It It_dt ref)).map (cand C 1 ref) :=
  listCrossingsAux_pos C It It_dt ref hC _ (le_refl _)

/-- Closed form of `list_crossings` for polarity `−1`. -/
lemma list_crossings_neg (C It It_dt ref : ℚ) (hC : 0 < C) :
    list_crossings C (-1) It It_dt ref =
      (List.range (negK C It It_dt ref)).map (cand C (-1) ref) :=
  listCrossingsAux_neg C It It_dt ref hC _ (le_refl _)

/-- Successful-branch unfolding of `update`. -/
lemma update_some (sim : DvsSimulator) (t_dt : ℚ) (f : Frame)
    (h : (f.height = sim.It_array.height ∧ f.width = sim.It_array.width) ∧
      0 < t_dt - sim.t) :
    sim.update t_dt f = some
      ((List.range sim.width).flatMap fun u =>
        (List.range sim.height).flatMap fun v =>
          pixelEvents sim.C sim.t (t_dt - sim.t) (sim.It_array.values v u)
            (f.values v u) (sim.reference_values v u) u v,
       { sim with
         reference_values := fun v u =>
           if v < sim.height ∧ u < sim.width then
             pixelNewRef sim.C (sim.It_array.values v u)
               (f.values v u) (sim.reference_values v u)
           else sim.reference_values v u
         It_array := f
         t := t_dt }) := by
  unfold DvsSimulator.update
  exact if_pos h

/-- A successful `update` implies its preconditions held. -/
lemma of_update_eq_some {sim : DvsSimulator} {t_dt : ℚ} {f : Frame}
    {evs : List Event} {sim' : DvsSimulator}
    (h : sim.update t_dt f = some (evs, sim')) :
    (f.height = sim.It_array.height ∧ f.width = sim.It_array.width) ∧
      0 < t_dt - sim.t := by
  by_contra hc
  unfold DvsSimulator.update at h
  rw [if_neg hc] at h
  exact Option.noConfusion h

/-- The event list a successful `update` returns. -/
lemma update_events {sim : DvsSimulator} {t_dt : ℚ} {f : Frame}
    {evs : List Event} {sim' : DvsSimulator}
    (h : sim.update t_dt f = some (evs, sim')) :
    evs = (List.range sim.width).flatMap fun u =>
        (List.range sim.height).flatMap fun v =>
          pixelEvents sim.C sim.t (t_dt - sim.t) (sim.It_array.values v u)
            (f.values v u) (sim.reference_values v u) u v := by
  have hc := of_update_eq_some h
  rw [update_some sim t_dt f hc] at h
  have := (Option.some.injEq _ _).mp h
  exact (congrArg Prod.fst this).symm

/-- The state a successful `update` returns. -/
lemma update_state {sim : DvsSimulator} {t_dt : ℚ} {f : Frame}
    {evs : List Event} {sim' : DvsSimulator}
    (h : sim.update t_dt f = some (evs, sim')) :
    sim' = { sim with
         reference_values := fun v u =>
           if v < sim.height ∧ u < sim.width then
             pixelNewRef sim.C (sim.It_array.values v u)
               (f.values v u) (sim.reference_values v u)
           else sim.reference_values v u
         It_array := f
         t := t_dt } := by
  have hc := of_update_eq_some h
  rw [update_some sim t_dt f hc] at h
  have := (Option.some.injEq _ _).mp h
  exact (congrArg Prod.snd this).symm

/-- Reference level of an in-range pixel after a successful `update`. -/
lemma update_ref {sim : DvsSimulator} {t_dt : ℚ} {f : Frame}
    {evs : List Event} {sim' : DvsSimulator}
    (h : sim.update t_dt f = some (evs, sim')) {v u : ℕ}
    (hv : v < sim.height) (hu : u < sim.width) :
    sim'.reference_values v u = pixelNewRef sim.C (sim.It_array.values v u)
      (f.values v u) (sim.reference_values v u) := by
  rw [update_state h]
  exact if_pos ⟨hv, hu⟩

/-- Reference level of an out-of-range entry after a successful
`update` (untouched by the loop). -/
lemma update_ref_out {sim : DvsSimulator} {t_dt : ℚ} {f : Frame}
    {evs : List Event} {sim' : DvsSimulator}
    (h : sim.update t_dt f = some (evs, sim')) {v u : ℕ}
    (hvu : ¬ (v < sim.height ∧ u < sim.width)) :
    sim'.reference_values v u = sim.reference_values v u := by
  rw [update_state h]
  exact if_neg hvu

lemma pixelPolarity_pos {It It_dt : ℚ} (h : It ≤ It_dt) :
    pixelPolarity It It_dt = 1 := if_pos h

lemma pixelPolarity_neg {It It_dt : ℚ} (h : ¬ It ≤ It_dt) :
    pixelPolarity It It_dt = -1 := if_neg h

lemma pixelPolarity_cases (It It_dt : ℚ) :
    pixelPolarity It It_dt = 1 ∨ pixelPolarity It It_dt = -1 := by
  unfold pixelPolarity
  split
  · exact Or.inl rfl
  · exact Or.inr rfl

lemma tol_pos : (0 : ℚ) < tol := by norm_num [tol]

/-- C10: under the preconditions (`C > 0`), the crossing-scan loop
terminates: its fuel-indexed unrolling is already stable at
`crossingFuel C It_dt ref = ⌊|It_dt − ref| / C⌋ + 1` steps — on the
order of `|It_dt − ref| / C + 1` iterations — so every further unrolling
returns the same crossing list and the per-pixel scan is a total
function of its inputs. -/
theorem crossing_loop_terminates (C It It_dt ref : ℚ) (hC : 0 < C) (fuel : ℕ)
    (hfuel : crossingFuel C It_dt ref ≤ fuel) :
    listCrossingsAux C (pixelPolarity It It_dt) It It_dt fuel ref =
      pixelCrossings C It It_dt ref := by
  unfold pixelCrossings list_crossings
  rcases pixelPolarity_cases It It_dt with hp | hp <;> rw [hp]
  · rw [listCrossingsAux_pos C It It_dt ref hC fuel hfuel,
      listCrossingsAux_pos C It It_dt ref hC _ (le_refl _)]
  · rw [listCrossingsAux_neg C It It_dt ref hC fuel hfuel,
      listCrossingsAux_neg C It It_dt ref hC _ (le_refl _)]

/-- Witness for C10 at `C = 1`, `It = 0`, `It_dt = 1/2`, `ref = 0`,
fuel 7. -/
theorem crossing_loop_terminates_witness :
    listCrossingsAux 1 (pixelPolarity 0 (1 / 2)) 0 (1 / 2) 7 0 =
      pixelCrossings 1 0 (1 / 2) 0 := by
  refine crossing_loop_terminates 1 0 (1 / 2) 0 (by norm_num) 7 ?_
  unfold crossingFuel
  rw [abs_of_nonneg (by norm_num : (0 : ℚ) ≤ 1 / 2 - 0)]
  norm_num

/-- C1: for a processed pixel (`|It − It_dt| > tol`) with the polarity
the source computes, the crossing values are exactly the consecutive
candidates `ref + k·pol·C` (`k = 1, 2, …`) in increasing `k`, all
passing the range test, stopping at the first failing candidate; and
when `ref = It` their number is `⌊|It_dt − It| / C⌋`. -/
theorem crossings_exact_run (C It It_dt ref : ℚ) (pol : ℤ) (hC : 0 < C)
    (htol : tol < |It - It_dt|) (hpol : pol = pixelPolarity It It_dt) :
    ∃ K : ℕ,
      pixelCrossings C It It_dt ref = (List.range K).map (cand C pol ref) ∧
      (∀ k : ℕ, k < K → crossingTest pol It It_dt (cand C pol ref k) = true) ∧
      crossingTest pol It It_dt (cand C pol ref K) = false ∧
      (ref = It → (K : ℤ) = ⌊|It_dt - It| / C⌋) := by
  subst hpol
  by_cases hle : It ≤ It_dt
  · have hp1 : pixelPolarity It It_dt = 1 := pixelPolarity_pos hle
    rw [hp1]
    have hlt : It < It_dt := by
      rcases lt_or_eq_of_le hle with h | h
      · exact h
      · exfalso
        rw [h] at htol
        simp at htol
        linarith [tol_pos, htol]
    obtain ⟨hpass, hfail, -⟩ := posK_spec C It It_dt ref hC
    refine ⟨posK C It It_dt ref, ?_, hpass, hfail, ?_⟩
    · unfold pixelCrossings
      rw [hp1]
      exact list_crossings_pos C It It_dt ref hC
    · intro h
      rw [h]
      rw [abs_of_nonneg (by linarith : (0 : ℚ) ≤ It_dt - It)]
      unfold posK
      by_cases ht : crossingTest 1 It It_dt (It + C) = true
      · rw [if_pos ht]
        have hmem : It < It + C ∧ It + C ≤ It_dt := by
          simpa only [crossingTest, if_pos Int.one_pos, decide_eq_true_eq] using ht
        exact Int.toNat_of_nonneg
          (Int.floor_nonneg.mpr (div_nonneg (by linarith [hmem.2]) hC.le))
      · rw [if_neg ht]
        have hnot : ¬ (It < It + C ∧ It + C ≤ It_dt) := by
          intro hcon
          exact ht (by
            simpa only [crossingTest, if_pos Int.one_pos, decide_eq_true_eq] using hcon)
        have h2 : It_dt < It + C := by
          by_contra hcon
          push_neg at hcon
          exact hnot ⟨by linarith, hcon⟩
        simp only [Nat.cast_zero]
        symm
        rw [Int.floor_eq_zero_iff, Set.mem_Ico]
        refine ⟨div_nonneg (by linarith) hC.le, ?_⟩
        rw [div_lt_one hC]
        linarith
  · have hp1 : pixelPolarity It It_dt = -1 := pixelPolarity_neg hle
    rw [hp1]
    have hlt : It_dt < It := not_le.mp hle
    obtain ⟨hpass, hfail, -⟩ := negK_spec C It It_dt ref hC
    refine ⟨negK C It It_dt ref, ?_, hpass, hfail, ?_⟩
    · unfold pixelCrossings
      rw [hp1]
      exact list_crossings_neg C It It_dt ref hC
    · intro h
      rw [h]
      rw [abs_of_nonpos (by linarith : It_dt - It ≤ 0), neg_sub]
      unfold negK
      by_cases ht : crossingTest (-1) It It_dt (It - C) = true
      · rw [if_pos ht]
        have hmem : It - C < It ∧ It_dt ≤ It - C := by
          simpa only [crossingTest, if_neg (by norm_num : ¬ (0 : ℤ) < -1),
            decide_eq_true_eq] using ht
        exact Int.toNat_of_nonneg
          (Int.floor_nonneg.mpr (div_nonneg (by linarith [hmem.2]) hC.le))
      · rw [if_neg ht]
        have hnot : ¬ (It - C < It ∧ It_dt ≤ It - C) := by
          intro hcon
          exact ht (by
            simpa only [crossingTest, if_neg (by norm_num : ¬ (0 : ℤ) < -1),
              decide_eq_true_eq] using hcon)
        have h2 : It - C < It_dt := by
          by_contra hcon
          push_neg at hcon
          exact hnot ⟨by linarith, hcon⟩
        simp only [Nat.cast_zero]
        symm
        rw [Int.floor_eq_zero_iff, Set.mem_Ico]
        refine ⟨div_nonneg (by linarith) hC.le, ?_⟩
        rw [div_lt_one hC]
        linarith

/-- Witness for C1 at `C = 3/20`, `It = 0`, `It_dt = 1/2`, `ref = 0`
(the spec scenario with three crossings). -/
theorem crossings_exact_run_witness :
    ∃ K : ℕ,
      pixelCrossings (3 / 20) 0 (1 / 2) 0 = (List.range K).map (cand (3 / 20) 1 0) ∧
      (∀ k : ℕ, k < K → crossingTest 1 0 (1 / 2) (cand (3 / 20) 1 0 k) = true) ∧
      crossingTest 1 0 (1 / 2) (cand (3 / 20) 1 0 K) = false ∧
      ((0 : ℚ) = 0 → (K : ℤ) = ⌊|(1 : ℚ) / 2 - 0| / (3 / 20)⌋) := by
  refine crossings_exact_run (3 / 20) 0 (1 / 2) 0 1 (by norm_num) ?_ ?_
  · rw [abs_of_nonpos (by norm_num : (0 : ℚ) - 1 / 2 ≤ 0)]
    norm_num [tol]
  · exact (pixelPolarity_pos (by norm_num : (0 : ℚ) ≤ 1 / 2)).symm

/-- Every event a processed pixel emits carries the interpolated
timestamp of its crossing, and that timestamp lies in `[t, t + Δt]`. -/
lemma pixelEvents_ts {C t delta_t It It_dt ref : ℚ} {u v : ℕ} (hd : 0 < delta_t) :
    ∀ e ∈ pixelEvents C t delta_t It It_dt ref u v,
      ∃ c ∈ pixelCrossings C It It_dt ref,
        e = make_event u v (t + (c - It) * delta_t / (It_dt - It))
          (decide (0 < pixelPolarity It It_dt)) ∧
        t ≤ e.ts ∧ e.ts ≤ t + delta_t := by
  intro e he
  unfold pixelEvents at he
  split at he
  · obtain ⟨c, hc, rfl⟩ := List.mem_map.mp he
    have htest : crossingTest (pixelPolarity It It_dt) It It_dt c = true :=
      crossingTest_of_mem hc
    refine ⟨c, hc, rfl, ?_, ?_⟩
    · show t ≤ t + (c - It) * delta_t / (It_dt - It)
      rcases pixelPolarity_cases It It_dt with hp | hp <;> rw [hp] at htest
      · have hm : It < c ∧ c ≤ It_dt := by
          simpa only [crossingTest, if_pos Int.one_pos, decide_eq_true_eq] using htest
        have : (0 : ℚ) ≤ (c - It) * delta_t / (It_dt - It) :=
          div_nonneg (mul_nonneg (by linarith [hm.1]) hd.le) (by linarith [hm.1, hm.2])
        linarith
      · have hm : c < It ∧ It_dt ≤ c := by
          simpa only [crossingTest, if_neg (by norm_num : ¬ (0 : ℤ) < -1),
            decide_eq_true_eq] using htest
        have hneg : It_dt - It < 0 := by linarith [hm.1, hm.2]
        have : (0 : ℚ) ≤ (c - It) * delta_t / (It_dt - It) := by
          rw [le_div_iff_of_neg hneg]
          nlinarith [hm.1]
        linarith
    · show t + (c - It) * delta_t / (It_dt - It) ≤ t + delta_t
      rcases pixelPolarity_cases It It_dt with hp | hp <;> rw [hp] at htest
      · have hm : It < c ∧ c ≤ It_dt := by
          simpa only [crossingTest, if_pos Int.one_pos, decide_eq_true_eq] using htest
        have hpos : (0 : ℚ) < It_dt - It := by linarith [hm.1, hm.2]
        have : (c - It) * delta_t / (It_dt - It) ≤ delta_t := by
          rw [div_le_iff₀ hpos]
          nlinarith [hm.2]
        linarith
      · have hm : c < It ∧ It_dt ≤ c := by
          simpa only [crossingTest, if_neg (by norm_num : ¬ (0 : ℤ) < -1),
            decide_eq_true_eq] using htest
        have hneg : It_dt - It < 0 := by linarith [hm.1, hm.2]
        have : (c - It) * delta_t / (It_dt - It) ≤ delta_t := by
          rw [div_le_iff_of_neg hneg]
          nlinarith [hm.2]
        linarith
  · simp at he

/-- C2: every event a successful `update` emits belongs to some in-range
pixel, is built from one of that pixel's crossing values `c` with
timestamp `t0 + (c − I0)·(t1 − t0)/(I1 − I0)`, and that timestamp lies
in the closed interval `[t0, t1]`. -/
theorem event_timestamps (sim : DvsSimulator) (t_dt : ℚ) (f : Frame)
    (evs : List Event) (sim' : DvsSimulator)
    (h : sim.update t_dt f = some (evs, sim')) :
    ∀ e ∈ evs, ∃ u v : ℕ, u < sim.width ∧ v < sim.height ∧
      ∃ c ∈ pixelCrossings sim.C (sim.It_array.values v u) (f.values v u)
          (sim.reference_values v u),
        e = make_event u v
          (sim.t + (c - sim.It_array.values v u) * (t_dt - sim.t) /
            (f.values v u - sim.It_array.values v u))
          (decide (0 < pixelPolarity (sim.It_array.values v u) (f.values v u))) ∧
        sim.t ≤ e.ts ∧ e.ts ≤ t_dt := by
  intro e he
  have hd : 0 < t_dt - sim.t := (of_update_eq_some h).2
  rw [update_events h] at he
  obtain ⟨u, hu, he⟩ := List.mem_flatMap.mp he
  obtain ⟨v, hv, he⟩ := List.mem_flatMap.mp he
  obtain ⟨c, hc, hce, h1, h2⟩ := pixelEvents_ts hd e he
  refine ⟨u, v, List.mem_range.mp hu, List.mem_range.mp hv, c, hc, hce, h1, ?_⟩
  have : sim.t + (t_dt - sim.t) = t_dt := by ring
  linarith

lemma wCond :
    (wFrame.height = wSim.It_array.height ∧ wFrame.width = wSim.It_array.width) ∧
      0 < (1 : ℚ) - wSim.t := by
  refine ⟨⟨rfl, rfl⟩, ?_⟩
  show (0 : ℚ) < 1 - 0
  norm_num

lemma wCrossings : pixelCrossings (1 / 2) 0 (1 / 2) 0 = [1 / 2] := by
  unfold pixelCrossings
  rw [pixelPolarity_pos (by norm_num : (0 : ℚ) ≤ 1 / 2)]
  have hf : crossingFuel (1 / 2) (1 / 2) 0 = 2 := by
    unfold crossingFuel
    rw [abs_of_nonneg (by norm_num : (0 : ℚ) ≤ 1 / 2 - 0)]
    norm_num
  rw [list_crossings, hf]
  norm_num [listCrossingsAux, crossingTest]

/-- The witness `update` call succeeds and produces exactly one event. -/
lemma wUpdate : wSim.update 1 wFrame = some (wEvs, wSim2) := by
  rw [update_some wSim 1 wFrame wCond]
  simp only [Option.some.injEq, Prod.mk.injEq]
  constructor
  · simp only [wSim, wFrame, constFrame]
    rw [show List.range 1 = [0] from rfl]
    simp only [List.flatMap_cons, List.flatMap_nil, List.append_nil]
    rw [pixelEvents,
      if_pos (by
        rw [abs_of_nonpos (by norm_num : (0 : ℚ) - 1 / 2 ≤ 0)]
        norm_num [tol])]
    rw [wCrossings, pixelPolarity_pos (by norm_num : (0 : ℚ) ≤ 1 / 2)]
    simp only [List.map_cons, List.map_nil, wEvs, make_event]
    norm_num
  · unfold wSim2 stepD
    rw [update_some wSim 1 wFrame wCond]
    rfl

lemma wSkipCond :
    ((constFrame 0).height = wSim.It_array.height ∧
      (constFrame 0).width = wSim.It_array.width) ∧ 0 < (1 : ℚ) - wSim.t := by
  refine ⟨⟨rfl, rfl⟩, ?_⟩
  show (0 : ℚ) < 1 - 0
  norm_num

/-- Feeding the witness simulator an identical frame succeeds with no
events. -/
lemma wSkipUpdate : wSim.update 1 (constFrame 0) = some ([], wSkip) := by
  rw [update_some wSim 1 (constFrame 0) wSkipCond]
  simp only [Option.some.injEq, Prod.mk.injEq]
  constructor
  · simp only [wSim, constFrame]
    rw [show List.range 1 = [0] from rfl]
    simp only [List.flatMap_cons, List.flatMap_nil, List.append_nil]
    rw [pixelEvents, if_neg (by norm_num [tol])]
  · unfold wSkip stepD
    rw [update_some wSim 1 (constFrame 0) wSkipCond]
    rfl

/-- C3: after a successful `update`, a processed pixel's reference
level equals the last crossing value found when there is one and is
unchanged when the crossing list is empty; a skipped pixel
(`|I1 − I0| ≤ tol`) keeps its reference level unchanged. -/
theorem reference_level_update (sim : DvsSimulator) (t_dt : ℚ) (f : Frame)
    (evs : List Event) (sim' : DvsSimulator)
    (h : sim.update t_dt f = some (evs, sim')) (v u : ℕ)
    (hv : v < sim.height) (hu : u < sim.width) :
    (tol < |sim.It_array.values v u - f.values v u| →
      sim'.reference_values v u =
        ((pixelCrossings sim.C (sim.It_array.values v u) (f.values v u)
            (sim.reference_values v u)).getLast?).getD
          (sim.reference_values v u)) ∧
    (¬ tol < |sim.It_array.values v u - f.values v u| →
      sim'.reference_values v u = sim.reference_values v u) := by
  rw [update_ref h hv hu]
  unfold pixelNewRef
  constructor
  · intro ht
    rw [if_pos ht]
  · intro ht
    rw [if_neg ht]

/-- Witness for C3 on the concrete witness run. -/
theorem reference_level_update_witness :
    (tol < |wSim.It_array.values 0 0 - wFrame.values 0 0| →
      wSim2.reference_values 0 0 =
        ((pixelCrossings wSim.C (wSim.It_array.values 0 0) (wFrame.values 0 0)
            (wSim.reference_values 0 0)).getLast?).getD
          (wSim.reference_values 0 0)) ∧
    (¬ tol < |wSim.It_array.values 0 0 - wFrame.values 0 0| →
      wSim2.reference_values 0 0 = wSim.reference_values 0 0) :=
  reference_level_update wSim 1 wFrame wEvs wSim2 wUpdate 0 0 Nat.one_pos Nat.one_pos

/-- C6: when every in-range pixel changes by at most the tolerance, a
successful `update` returns no events and leaves every reference level
unchanged. -/
theorem no_change_no_events (sim : DvsSimulator) (t_dt : ℚ) (f : Frame)
    (evs : List Event) (sim' : DvsSimulator)
    (h : sim.update t_dt f = some (evs, sim'))
    (hall : ∀ v u : ℕ, v < sim.height → u < sim.width →
      |sim.It_array.values v u - f.values v u| ≤ tol) :
    evs = [] ∧ ∀ v u : ℕ, sim'.reference_values v u = sim.reference_values v u := by
  constructor
  · rw [update_events h]
    refine List.eq_nil_iff_forall_not_mem.mpr ?_
    intro e he
    obtain ⟨u, hu, he⟩ := List.mem_flatMap.mp he
    obtain ⟨v, hv, he⟩ := List.mem_flatMap.mp he
    rw [pixelEvents,
      if_neg (not_lt.mpr (hall v u (List.mem_range.mp hv) (List.mem_range.mp hu)))] at he
    exact absurd he (List.not_mem_nil e)
  · intro v u
    by_cases hvu : v < sim.height ∧ u < sim.width
    · rw [update_ref h hvu.1 hvu.2]
      unfold pixelNewRef
      rw [if_neg (not_lt.mpr (hall v u hvu.1 hvu.2))]
    · exact update_ref_out h hvu

/-- Witness for C6 on the identical-frame run. -/
theorem no_change_no_events_witness :
    ([] : List Event) = [] ∧
      ∀ v u : ℕ, wSkip.reference_values v u = wSim.reference_values v u := by
  refine no_change_no_events wSim 1 (constFrame 0) [] wSkip wSkipUpdate ?_
  intro v u _ _
  show |(0 : ℚ) - 0| ≤ tol
  norm_num [tol]

/-- C7: a successful `update` stores the new timestamp and the new
snapshot unconditionally and leaves `C`, `width` and `height`
unchanged. -/
theorem update_stores_frame (sim : DvsSimulator) (t_dt : ℚ) (f : Frame)
    (evs : List Event) (sim' : DvsSimulator)
    (h : sim.update t_dt f = some (evs, sim')) :
    sim'.t = t_dt ∧ sim'.It_array = f ∧ sim'.C = sim.C ∧
      sim'.height = sim.height ∧ sim'.width = sim.width := by
  rw [update_state h]
  exact ⟨rfl, rfl, rfl, rfl, rfl⟩

/-- Witness for C7 on the concrete witness run. -/
theorem update_stores_frame_witness :
    wSim2.t = 1 ∧ wSim2.It_array = wFrame ∧ wSim2.C = wSim.C ∧
      wSim2.height = wSim.height ∧ wSim2.width = wSim.width :=
  update_stores_frame wSim 1 wFrame wEvs wSim2 wUpdate

/-- C8: `update` rejects the call (returns `none`, the embedding of the
failing `assert`) exactly when the new frame's dimensions differ from
the stored snapshot's or the timestamp delta is not strictly positive;
a rejected call yields no events and no successor state, so the
caller's simulator state is untouched. -/
theorem update_rejects_iff (sim : DvsSimulator) (t_dt : ℚ) (f : Frame) :
    sim.update t_dt f = none ↔
      ¬ (f.height = sim.It_array.height ∧ f.width = sim.It_array.width) ∨
        ¬ 0 < t_dt - sim.t := by
  unfold DvsSimulator.update
  by_cases hc : (f.height = sim.It_array.height ∧ f.width = sim.It_array.width) ∧
      0 < t_dt - sim.t
  · rw [if_pos hc]
    constructor
    · intro hx
      exact Option.noConfusion hx
    · intro hor
      rcases hor with h1 | h2
      · exact absurd hc.1 h1
      · exact absurd hc.2 h2
  · rw [if_neg hc]
    constructor
    · intro _
      by_contra hor
      push_neg at hor
      exact hc ⟨hor.1, hor.2⟩
    · intro _
      rfl

/-- Witness for C2 on the concrete witness run, at its single event. -/
theorem event_timestamps_witness :
    ∃ u v : ℕ, u < wSim.width ∧ v < wSim.height ∧
      ∃ c ∈ pixelCrossings wSim.C (wSim.It_array.values v u) (wFrame.values v u)
          (wSim.reference_values v u),
        make_event 0 0 1 true = make_event u v
          (wSim.t + (c - wSim.It_array.values v u) * (1 - wSim.t) /
            (wFrame.values v u - wSim.It_array.values v u))
          (decide (0 < pixelPolarity (wSim.It_array.values v u) (wFrame.values v u))) ∧
        wSim.t ≤ (make_event 0 0 1 true).ts ∧ (make_event 0 0 1 true).ts ≤ 1 :=
  event_timestamps wSim 1 wFrame wEvs wSim2 wUpdate (make_event 0 0 1 true)
    (List.mem_singleton.mpr rfl)

lemma eventLe_trans : ∀ a b c : Event,
    eventLe a b = true → eventLe b c = true → eventLe a c = true := by
  intro a b c hab hbc
  simp only [eventLe, decide_eq_true_eq] at hab hbc ⊢
  exact le_trans hab hbc

lemma eventLe_total : ∀ a b : Event, (eventLe a b || eventLe b a) = true := by
  intro a b
  simp only [eventLe, Bool.or_eq_true, decide_eq_true_eq]
  exact le_total a.ts b.ts

/-- C9: after a frame, when the elapsed time since the last publication
exceeds the publish interval, the buffered events are handed out as a
batch sorted by timestamp ascending (a permutation of the buffer),
tagged with the current frame timestamp, the buffer is cleared and the
last-publication timestamp is set to the frame timestamp; otherwise
nothing is published and the buffer state is retained unchanged. -/
theorem publish_batching (delta_event timestamp : ℚ) (st : DriverBuf) :
    (delta_event < timestamp - st.last_pub_event_timestamp →
       ∃ batch : List Event,
         publish_step delta_event timestamp st = (some (batch, timestamp),
           { events := [], last_pub_event_timestamp := timestamp }) ∧
         batch.Perm st.events ∧
         batch.Pairwise (fun a b => a.ts ≤ b.ts)) ∧
    (¬ delta_event < timestamp - st.last_pub_event_timestamp →
       publish_step delta_event timestamp st = (none, st)) := by
  constructor
  · intro hgt
    refine ⟨st.events.mergeSort eventLe, ?_, ?_, ?_⟩
    · unfold publish_step
      rw [if_pos hgt]
    · exact List.mergeSort_perm st.events eventLe
    · have hs := List.sorted_mergeSort eventLe_trans eventLe_total st.events
      refine hs.imp ?_
      intro a b hab
      simpa only [eventLe, decide_eq_true_eq] using hab
  · intro hng
    unfold publish_step
    rw [if_neg hng]

/-- Witness for C9: a two-event buffer published after the interval
elapses. -/
theorem publish_batching_witness :
    ∃ batch : List Event,
      publish_step 1 2 ({ events := [make_event 0 0 2 true, make_event 0 0 1 false],
                          last_pub_event_timestamp := 0 }) = (some (batch, 2),
        { events := [], last_pub_event_timestamp := 2 }) ∧
      batch.Perm [make_event 0 0 2 true, make_event 0 0 1 false] ∧
      batch.Pairwise (fun a b => a.ts ≤ b.ts) :=
  (publish_batching 1 2 _).1 (by norm_num)

lemma darkCrossings :
    pixelCrossings (1 / 10) (1 / 2) 0 (1 / 2) = [2 / 5, 3 / 10, 1 / 5, 1 / 10, 0] := by
  unfold pixelCrossings
  rw [pixelPolarity_neg (by norm_num : ¬ (1 : ℚ) / 2 ≤ 0)]
  have hf : crossingFuel (1 / 10) 0 (1 / 2) = 6 := by
    unfold crossingFuel
    rw [abs_of_nonpos (by norm_num : (0 : ℚ) - 1 / 2 ≤ 0)]
    norm_num
    omega
  rw [list_crossings, hf]
  norm_num [listCrossingsAux, crossingTest]

/-- Counterexample to C5 as stated: in the darkening scenario
(`C = 1/10`, `I0 = ref = 1/2`, `I1 = 0`) the crossing values are
`0.4, 0.3, 0.2, 0.1, 0.0` — the value `0.0` itself is among them
(the `>=` far-end test is inclusive), so an event IS emitted at the
value `0.0`, contradicting "no event is emitted at the value 0.0
itself". -/
theorem darkening_counterexample :
    pixelCrossings (1 / 10) (1 / 2) 0 (1 / 2) = [2 / 5, 3 / 10, 1 / 5, 1 / 10, 0] ∧
    (0 : ℚ) ∈ pixelCrossings (1 / 10) (1 / 2) 0 (1 / 2) := by
  refine ⟨darkCrossings, ?_⟩
  rw [darkCrossings]
  simp

/-- C5 (amended): the darkening scenario emits polarity-`false` events
at crossing values `0.4, 0.3, 0.2, 0.1, 0.0` — all `≥ 0`, the last
landing exactly on `I1 = 0` — with strictly increasing timestamps
`0.2, 0.4, 0.6, 0.8, 1`. -/
theorem darkening_scenario :
    pixelCrossings (1 / 10) (1 / 2) 0 (1 / 2) = [2 / 5, 3 / 10, 1 / 5, 1 / 10, 0] ∧
    pixelEvents (1 / 10) 0 1 (1 / 2) 0 (1 / 2) 0 0 =
      [make_event 0 0 (1 / 5) false, make_event 0 0 (2 / 5) false,
       make_event 0 0 (3 / 5) false, make_event 0 0 (4 / 5) false,
       make_event 0 0 1 false] ∧
    List.Pairwise (fun a b : Event => a.ts < b.ts)
      (pixelEvents (1 / 10) 0 1 (1 / 2) 0 (1 / 2) 0 0) ∧
    (∀ c ∈ pixelCrossings (1 / 10) (1 / 2) 0 (1 / 2), 0 ≤ c) ∧
    (∀ e ∈ pixelEvents (1 / 10) 0 1 (1 / 2) 0 (1 / 2) 0 0, e.polarity = false) := by
  have hev : pixelEvents (1 / 10) 0 1 (1 / 2) 0 (1 / 2) 0 0 =
      [make_event 0 0 (1 / 5) false, make_event 0 0 (2 / 5) false,
       make_event 0 0 (3 / 5) false, make_event 0 0 (4 / 5) false,
       make_event 0 0 1 false] := by
    rw [pixelEvents,
      if_pos (by
        rw [abs_of_nonneg (by norm_num : (0 : ℚ) ≤ 1 / 2 - 0)]
        norm_num [tol])]
    rw [darkCrossings, pixelPolarity_neg (by norm_num : ¬ (1 : ℚ) / 2 ≤ 0)]
    simp only [List.map_cons, List.map_nil, make_event]
    norm_num
  refine ⟨darkCrossings, hev, ?_, ?_, ?_⟩
  · rw [hev]
    simp only [List.pairwise_cons, List.mem_cons, List.not_mem_nil, make_event]
    norm_num
  · rw [darkCrossings]
    intro c hc
    rcases List.mem_cons.mp hc with rfl | hc <;>
      [norm_num;
       (rcases List.mem_cons.mp hc with rfl | hc <;>
        [norm_num;
         (rcases List.mem_cons.mp hc with rfl | hc <;>
          [norm_num;
           (rcases List.mem_cons.mp hc with rfl | hc <;>
            [norm_num;
             (rcases List.mem_cons.mp hc with rfl | hc <;>
              [norm_num; simp at hc])])])])]
  · rw [hev]
    intro e he
    rcases List.mem_cons.mp he with rfl | he <;>
      [rfl;
       (rcases List.mem_cons.mp he with rfl | he <;>
        [rfl;
         (rcases List.mem_cons.mp he with rfl | he <;>
          [rfl;
           (rcases List.mem_cons.mp he with rfl | he <;>
            [rfl;
             (rcases List.mem_cons.mp he with rfl | he <;>
              [rfl; simp at he])])])])]

/-- A reference level at distance at most `C` from the intensity has no
pending crossing strictly between them. -/
lemma not_pendingCrossing_of_close {C I ref : ℚ} (hC : 0 < C)
    (h : |I - ref| ≤ C) : ¬ pendingCrossing C I ref := by
  rintro ⟨n, hn, hcase⟩
  have hn1 : (1 : ℚ) ≤ (n : ℚ) := by exact_mod_cast hn
  have hnC : C ≤ (n : ℚ) * C := by nlinarith
  have habs := abs_le.mp h
  rcases hcase with hb | hb <;>
    rcases hb with ⟨h1, h2⟩ | ⟨h1, h2⟩ <;> linarith [habs.1, habs.2]

lemma getLast?_map_range (f : ℕ → ℚ) (n : ℕ) :
    ((List.range (n + 1)).map f).getLast? = some (f n) := by
  rw [List.range_succ, List.map_append]
  exact List.getLast?_concat _

/-- The new reference level of a pixel is the old one plus an integer
multiple of `C`. -/
lemma pixelNewRef_multiple (C It It_dt ref : ℚ) :
    ∃ m : ℤ, pixelNewRef C It It_dt ref = ref + (m : ℚ) * C := by
  unfold pixelNewRef
  split
  · rcases hgl : (pixelCrossings C It It_dt ref).getLast? with _ | c
    · exact ⟨0, by simp⟩
    · simp only [Option.getD_some]
      have hcmem : c ∈ pixelCrossings C It It_dt ref := by
        obtain ⟨hne, hEq⟩ := List.mem_getLast?_eq_getLast (Option.mem_def.mpr hgl)
        exact hEq ▸ List.getLast_mem hne
      obtain ⟨n, hn, hc⟩ := offset_of_mem hcmem
      refine ⟨pixelPolarity It It_dt * n, ?_⟩
      rw [hc]
      push_cast
      ring
  · exact ⟨0, by simp⟩

/-- A processed pixel whose reference level starts strictly within `C`
of the old intensity ends strictly within `C` of the new intensity. -/
lemma pixelNewRef_close (C It It_dt ref : ℚ) (hC : 0 < C)
    (htol : tol < |It - It_dt|) (hclose : |It - ref| < C) :
    |It_dt - pixelNewRef C It It_dt ref| < C := by
  have habs := abs_lt.mp hclose
  unfold pixelNewRef
  rw [if_pos htol]
  by_cases hle : It ≤ It_dt
  · have hlt : It < It_dt := by
      rcases lt_or_eq_of_le hle with h | h
      · exact h
      · exfalso
        rw [h] at htol
        simp at htol
        linarith [tol_pos, htol]
    unfold pixelCrossings
    rw [pixelPolarity_pos hle, list_crossings_pos C It It_dt ref hC]
    obtain ⟨hpass, hfail, -⟩ := posK_spec C It It_dt ref hC
    rcases hK : posK C It It_dt ref with _ | n
    · rw [hK] at hfail
      simp only [List.range_zero, List.map_nil, List.getLast?_nil, Option.getD_none]
      have h0 : cand C 1 ref 0 = ref + C := by
        rw [cand_zero]
        norm_num
      rw [h0] at hfail
      have hnot : ¬ (It < ref + C ∧ ref + C ≤ It_dt) := by
        intro hcon
        have hx : crossingTest 1 It It_dt (ref + C) = true := by
          simpa only [crossingTest, if_pos Int.one_pos, decide_eq_true_eq] using hcon
        rw [hx] at hfail
        exact Bool.noConfusion hfail
      have h1 : It < ref + C := by linarith [habs.2]
      have h2 : It_dt < ref + C := by
        by_contra hcon
        push_neg at hcon
        exact hnot ⟨h1, hcon⟩
      rw [abs_lt]
      constructor <;> linarith [habs.1, habs.2]
    · rw [hK] at hpass hfail
      rw [getLast?_map_range, Option.getD_some]
      have hpn := hpass n (Nat.lt_succ_self n)
      have hmem : It < cand C 1 ref n ∧ cand C 1 ref n ≤ It_dt := by
        simpa only [crossingTest, if_pos Int.one_pos, decide_eq_true_eq] using hpn
      have hstep : cand C 1 ref (n + 1) = cand C 1 ref n + C := by
        unfold cand
        push_cast
        ring
      have hnot : ¬ (It < cand C 1 ref (n + 1) ∧ cand C 1 ref (n + 1) ≤ It_dt) := by
        intro hcon
        have : crossingTest 1 It It_dt (cand C 1 ref (n + 1)) = true := by
          simpa only [crossingTest, if_pos Int.one_pos, decide_eq_true_eq] using hcon
        rw [this] at hfail
        exact Bool.noConfusion hfail
      have h1 : It < cand C 1 ref (n + 1) := by
        rw [hstep]
        linarith [hmem.1]
      have h2 : It_dt < cand C 1 ref (n + 1) := by
        by_contra hcon
        push_neg at hcon
        exact hnot ⟨h1, hcon⟩
      rw [hstep] at h2
      rw [abs_lt]
      constructor <;> linarith [hmem.2]
  · have hlt : It_dt < It := not_le.mp hle
    unfold pixelCrossings
    rw [pixelPolarity_neg hle, list_crossings_neg C It It_dt ref hC]
    obtain ⟨hpass, hfail, -⟩ := negK_spec C It It_dt ref hC
    rcases hK : negK C It It_dt ref with _ | n
    · rw [hK] at hfail
      simp only [List.range_zero, List.map_nil, List.getLast?_nil, Option.getD_none]
      have h0 : cand C (-1) ref 0 = ref - C := by
        rw [cand_zero]
        push_cast
        ring
      rw [h0] at hfail
      have hnot : ¬ (ref - C < It ∧ It_dt ≤ ref - C) := by
        intro hcon
        have : crossingTest (-1) It It_dt (ref - C) = true := by
          simpa only [crossingTest, if_neg (by norm_num : ¬ (0 : ℤ) < -1),
            decide_eq_true_eq] using hcon
        rw [this] at hfail
        exact Bool.noConfusion hfail
      have h1 : ref - C < It := by linarith [habs.1]
      have h2 : ref - C < It_dt := by
        by_contra hcon
        push_neg at hcon
        exact hnot ⟨h1, hcon⟩
      rw [abs_lt]
      constructor <;> linarith [habs.1, habs.2]
    · rw [hK] at hpass hfail
      rw [getLast?_map_range, Option.getD_some]
      have hpn := hpass n (Nat.lt_succ_self n)
      have hmem : cand C (-1) ref n < It ∧ It_dt ≤ cand C (-1) ref n := by
        simpa only [crossingTest, if_neg (by norm_num : ¬ (0 : ℤ) < -1),
          decide_eq_true_eq] using hpn
      have hstep : cand C (-1) ref (n + 1) = cand C (-1) ref n - C := by
        unfold cand
        push_cast
        ring
      have hnot : ¬ (cand C (-1) ref (n + 1) < It ∧ It_dt ≤ cand C (-1) ref (n + 1)) := by
        intro hcon
        have : crossingTest (-1) It It_dt (cand C (-1) ref (n + 1)) = true := by
          simpa only [crossingTest, if_neg (by norm_num : ¬ (0 : ℤ) < -1),
            decide_eq_true_eq] using hcon
        rw [this] at hfail
        exact Bool.noConfusion hfail
      have h1 : cand C (-1) ref (n + 1) < It := by
        rw [hstep]
        linarith [hmem.1]
      have h2 : It_dt > cand C (-1) ref (n + 1) := by
        by_contra hcon
        push_neg at hcon
        exact hnot ⟨h1, hcon⟩
      rw [hstep] at h2
      rw [abs_lt]
      constructor <;> linarith [hmem.2]

/-- C4 (amended): construction makes every reference level the pixel's
initial value plus `0·C`; every successful `update` keeps each in-range
reference level at its old value plus an integer multiple of `C`; and
for a pixel that is processed this step (`|I1 − I0| > tol`) whose
reference level starts strictly within `C` of the old snapshot, the new
reference level is strictly within `C` of the new snapshot and no
unemitted crossing lies strictly between them.  (Tolerance-skipped
steps can silently widen the gap, which is why the pending-crossing
half needs these two premises — see the counterexample.) -/
theorem reference_invariant (sim : DvsSimulator) (t_dt : ℚ) (f : Frame)
    (evs : List Event) (sim' : DvsSimulator) (hC : 0 < sim.C)
    (h : sim.update t_dt f = some (evs, sim')) (v u : ℕ)
    (hv : v < sim.height) (hu : u < sim.width) :
    (∀ (t0 : ℚ) (f0 : Frame) (C0 : ℚ) (s0 : DvsSimulator),
       DvsSimulator.init t0 f0 C0 = some s0 →
       ∀ v0 u0 : ℕ, s0.reference_values v0 u0 = f0.values v0 u0 + ((0 : ℤ) : ℚ) * C0) ∧
    (∀ (a : ℚ) (m : ℤ), sim.reference_values v u = a + (m : ℚ) * sim.C →
       ∃ m' : ℤ, sim'.reference_values v u = a + (m' : ℚ) * sim.C) ∧
    (tol < |sim.It_array.values v u - f.values v u| →
     |sim.It_array.values v u - sim.reference_values v u| < sim.C →
       |f.values v u - sim'.reference_values v u| < sim.C ∧
       ¬ pendingCrossing sim.C (f.values v u) (sim'.reference_values v u)) := by
  refine ⟨?_, ?_, ?_⟩
  · intro t0 f0 C0 s0 hinit v0 u0
    unfold DvsSimulator.init at hinit
    split at hinit
    · have hs := (Option.some.injEq _ _).mp hinit
      rw [← hs]
      simp
    · exact Option.noConfusion hinit
  · intro a m hm
    rw [update_ref h hv hu]
    obtain ⟨m', hm'⟩ := pixelNewRef_multiple sim.C (sim.It_array.values v u)
      (f.values v u) (sim.reference_values v u)
    refine ⟨m + m', ?_⟩
    rw [hm', hm]
    push_cast
    ring
  · intro htol hclose
    rw [update_ref h hv hu]
    have hb := pixelNewRef_close sim.C (sim.It_array.values v u) (f.values v u)
      (sim.reference_values v u) hC htol hclose
    exact ⟨hb, not_pendingCrossing_of_close hC hb.le⟩

/-- Witness for C4 (amended) on the concrete witness run. -/
theorem reference_invariant_witness :
    (∀ (t0 : ℚ) (f0 : Frame) (C0 : ℚ) (s0 : DvsSimulator),
       DvsSimulator.init t0 f0 C0 = some s0 →
       ∀ v0 u0 : ℕ, s0.reference_values v0 u0 = f0.values v0 u0 + ((0 : ℤ) : ℚ) * C0) ∧
    (∀ (a : ℚ) (m : ℤ), wSim.reference_values 0 0 = a + (m : ℚ) * wSim.C →
       ∃ m' : ℤ, wSim2.reference_values 0 0 = a + (m' : ℚ) * wSim.C) ∧
    (tol < |wSim.It_array.values 0 0 - wFrame.values 0 0| →
     |wSim.It_array.values 0 0 - wSim.reference_values 0 0| < wSim.C →
       |wFrame.values 0 0 - wSim2.reference_values 0 0| < wSim.C ∧
       ¬ pendingCrossing wSim.C (wFrame.values 0 0) (wSim2.reference_values 0 0)) :=
  reference_invariant wSim 1 wFrame wEvs wSim2
    (by show (0 : ℚ) < 1 / 2; norm_num) wUpdate 0 0 Nat.one_pos Nat.one_pos

lemma cexInit : DvsSimulator.init 0 (constFrame 0) cexC = some cexS0 := by
  unfold DvsSimulator.init
  rw [if_pos ⟨by norm_num [cexC], Nat.one_pos, Nat.one_pos⟩]
  rfl

lemma cexCond1 :
    ((constFrame (9 / 10000000)).height = cexS0.It_array.height ∧
      (constFrame (9 / 10000000)).width = cexS0.It_array.width) ∧
      0 < (1 : ℚ) - cexS0.t := by
  refine ⟨⟨rfl, rfl⟩, ?_⟩
  show (0 : ℚ) < 1 - 0
  norm_num

lemma cexRef1 : pixelNewRef cexC 0 (9 / 10000000) 0 = 0 := by
  unfold pixelNewRef
  rw [if_neg]
  rw [abs_of_nonpos (by norm_num : (0 : ℚ) - 9 / 10000000 ≤ 0)]
  rw [not_lt]
  norm_num [tol]

lemma cexRef2 : pixelNewRef cexC (9 / 10000000) (18 / 10000000) 0 = 0 := by
  unfold pixelNewRef
  rw [if_neg]
  rw [abs_of_nonpos (by norm_num : (9 : ℚ) / 10000000 - 18 / 10000000 ≤ 0)]
  rw [not_lt]
  norm_num [tol]

lemma cexS1_eq :
    cexS1 = { C := cexC, height := 1, width := 1,
              reference_values := fun v u =>
                if v < 1 ∧ u < 1 then pixelNewRef cexC 0 (9 / 10000000) 0 else 0,
              It_array := constFrame (9 / 10000000), t := 1 } := by
  unfold cexS1 stepD
  rw [update_some cexS0 1 (constFrame (9 / 10000000)) cexCond1]
  rfl

lemma cexCond2 :
    ((constFrame (18 / 10000000)).height = cexS1.It_array.height ∧
      (constFrame (18 / 10000000)).width = cexS1.It_array.width) ∧
      0 < (2 : ℚ) - cexS1.t := by
  rw [cexS1_eq]
  refine ⟨⟨rfl, rfl⟩, ?_⟩
  show (0 : ℚ) < 2 - 1
  norm_num

/-- Counterexample to C4 as stated: starting from the constructed 1×1
state at intensity 0 with `C = 1e-6`, two successive successful updates
with sub-tolerance drifts (to `9e-7`, then to `1.8e-6`) both skip the
pixel; after the first the invariant still holds (no crossing strictly
between snapshot `9e-7` and reference 0), but after the second the
candidate crossing `0 + 1·C = 1e-6` lies strictly between the stored
snapshot `1.8e-6` and the unchanged reference 0 — a successful call
does not preserve the no-unemitted-crossing invariant. -/
theorem invariant_counterexample :
    (DvsSimulator.init 0 (constFrame 0) cexC).isSome = true ∧
    (cexS0.update 1 (constFrame (9 / 10000000))).isSome = true ∧
    (cexS1.update 2 (constFrame (18 / 10000000))).isSome = true ∧
    (∃ m : ℤ, cexS1.reference_values 0 0 =
      (constFrame 0).values 0 0 + (m : ℚ) * cexS1.C) ∧
    ¬ pendingCrossing cexS1.C (cexS1.It_array.values 0 0)
        (cexS1.reference_values 0 0) ∧
    pendingCrossing cexS2.C (cexS2.It_array.values 0 0)
      (cexS2.reference_values 0 0) := by
  have h1C : cexS1.C = cexC := by rw [cexS1_eq]
  have h1I : cexS1.It_array.values 0 0 = 9 / 10000000 := by
    rw [cexS1_eq]
    rfl
  have h1r : cexS1.reference_values 0 0 = 0 := by
    rw [cexS1_eq]
    show (if (0 : ℕ) < 1 ∧ (0 : ℕ) < 1
      then pixelNewRef cexC 0 (9 / 10000000) 0 else 0) = 0
    rw [if_pos ⟨Nat.one_pos, Nat.one_pos⟩, cexRef1]
  obtain ⟨p2, hp2⟩ : ∃ p, cexS1.update 2 (constFrame (18 / 10000000)) = some p := by
    unfold DvsSimulator.update
    rw [if_pos cexCond2]
    exact ⟨_, rfl⟩
  have hS2 : cexS2 = p2.2 := by
    unfold cexS2 stepD
    rw [hp2]
    rfl
  have h2u : cexS1.update 2 (constFrame (18 / 10000000)) = some (p2.1, cexS2) := by
    rw [hS2, hp2]
  have hv1 : (0 : ℕ) < cexS1.height := by
    rw [cexS1_eq]
    exact Nat.one_pos
  have hu1 : (0 : ℕ) < cexS1.width := by
    rw [cexS1_eq]
    exact Nat.one_pos
  have h2C : cexS2.C = cexS1.C := by
    rw [update_state h2u]
  have h2I : cexS2.It_array.values 0 0 = 18 / 10000000 := by
    rw [update_state h2u]
    rfl
  have h2r : cexS2.reference_values 0 0 = 0 := by
    rw [update_ref h2u hv1 hu1, h1C, h1I, h1r]
    show pixelNewRef cexC (9 / 10000000) (18 / 10000000) 0 = 0
    exact cexRef2
  refine ⟨?_, ?_, ?_, ?_, ?_, ?_⟩
  · rw [cexInit]
    rfl
  · unfold DvsSimulator.update
    rw [if_pos cexCond1]
    rfl
  · rw [hp2]
    rfl
  · refine ⟨0, ?_⟩
    rw [h1r, h1C]
    show (0 : ℚ) = 0 + ((0 : ℤ) : ℚ) * cexC
    norm_num
  · rw [h1C, h1I, h1r]
    refine not_pendingCrossing_of_close (by norm_num [cexC]) ?_
    rw [abs_of_nonneg (by norm_num : (0 : ℚ) ≤ 9 / 10000000 - 0)]
    norm_num [cexC]
  · rw [h2C, h1C, h2I, h2r]
    refine ⟨1, le_refl 1, Or.inl (Or.inl ⟨?_, ?_⟩)⟩
    · show (0 : ℚ) < 0 + ((1 : ℕ) : ℚ) * cexC
      norm_num [cexC]
    · show (0 : ℚ) + ((1 : ℕ) : ℚ) * cexC < 18 / 10000000
      norm_num [cexC]

end DvsSim
